import Mathlib

/-!
Verification of the Avro primitive codec (`src/codec.rs`).

The byte stream is modelled as a `List Nat` of bytes (each byte < 256;
`encode` only ever produces values < 256).  A decode consumes bytes from
the front of the list and returns the undecoded remainder, mirroring the
mutable `ByteStream` iterator of the source: `decode : List Nat →
Option α × List Nat`, where the second component is the state of the
cursor after the call (on exhaustion the iterator is fully consumed, so
the remainder is `[]`).

Machine integers are modelled as `Nat`/`Int` with explicit reductions
`% 2^w`.  Shift amounts follow Rust release-profile semantics: the
amount of `<<` is masked by the bit width (`(7 * count) % w`), and the
result is truncated to the width.
-/

namespace AvroSpec

/-- The body of the `while vint != 0` loop of `encode`, phrased with an
explicit fuel counter so that the recursion is structural and the
kernel can evaluate it: each step emits the low seven bits of the
remaining magnitude with the continuation bit `0x80` set
(`(vint | 0x80) as u8`) and shifts right by seven. -/
def varintLoop : Nat → Nat → List Nat
  | 0, _ => []
  | fuel + 1, vint =>
    if vint = 0 then []
    else ((vint ||| 0x80) % 256) :: varintLoop fuel (vint >>> 7)

/-- The `while vint != 0` loop of `encode`.  The iteration count is
bounded by the value itself, so the fuel `vint` is always sufficient;
`varintBytes_eq` below recovers the exact loop equation. -/
def varintBytes (vint : Nat) : List Nat :=
  varintLoop vint vint

lemma varintLoop_fuel :
    ∀ (v f1 f2 : Nat), v ≤ f1 → v ≤ f2 → varintLoop f1 v = varintLoop f2 v := by
  intro v
  induction v using Nat.strong_induction_on with
  | _ v ih =>
    intro f1 f2 h1 h2
    by_cases hv : v = 0
    · subst hv
      cases f1 <;> cases f2 <;> simp [varintLoop]
    · obtain ⟨f1p, rfl⟩ : ∃ m, f1 = m + 1 := ⟨f1 - 1, by omega⟩
      obtain ⟨f2p, rfl⟩ : ∃ m, f2 = m + 1 := ⟨f2 - 1, by omega⟩
      simp only [varintLoop, if_neg hv]
      have hlt : v >>> 7 < v := by
        rw [Nat.shiftRight_eq_div_pow]
        exact Nat.div_lt_self (Nat.pos_of_ne_zero hv) (by norm_num)
      congr 1
      calc varintLoop f1p (v >>> 7) = varintLoop (v >>> 7) (v >>> 7) :=
            ih (v >>> 7) hlt f1p (v >>> 7) (by omega) (le_refl _)
        _ = varintLoop f2p (v >>> 7) :=
            (ih (v >>> 7) hlt f2p (v >>> 7) (by omega) (le_refl _)).symm

/-- The faithful loop equation of `varintBytes`. -/
lemma varintBytes_eq (vint : Nat) :
    varintBytes vint = if vint = 0 then []
      else ((vint ||| 0x80) % 256) :: varintBytes (vint >>> 7) := by
  by_cases hv : vint = 0
  · subst hv
    simp [varintBytes, varintLoop]
  · obtain ⟨n, rfl⟩ : ∃ m, vint = m + 1 := ⟨vint - 1, by omega⟩
    rw [if_neg hv]
    show varintLoop (n + 1) (n + 1) = _
    simp only [varintLoop, if_neg hv]
    congr 1
    have hlt : (n + 1) >>> 7 < n + 1 := by
      rw [Nat.shiftRight_eq_div_pow]
      exact Nat.div_lt_self (Nat.pos_of_ne_zero hv) (by norm_num)
    exact varintLoop_fuel ((n + 1) >>> 7) n ((n + 1) >>> 7) (by omega) (le_refl _)

/-- The epilogue of `encode`: `pop` the last emitted byte and push it
back with the continuation bit cleared (`last ^ 0x80`). -/
def finishEncode : List Nat → List Nat
  | [] => []
  | [b] => [b ^^^ 0x80]
  | b :: b' :: rest => b :: finishEncode (b' :: rest)

/-- Varint emission of a nonzero magnitude: the loop followed by the
pop/push fix-up of the final byte. -/
def encodeZig (u : Nat) : List Nat :=
  finishEncode (varintBytes u)

/-- The unsigned zigzag magnitude `((v << 1) ^ (v >> (w-1))) as uw`
computed on the `w`-bit two's-complement representation of `v`:
`v << 1` doubles the bit pattern modulo `2^w`, and the arithmetic shift
`v >> (w-1)` is all ones exactly when `v` is negative. -/
def zigzag (w : Nat) (v : Int) : Nat :=
  ((2 * (v % ((2 : Int) ^ w)).toNat) % 2 ^ w) ^^^ (if v < 0 then 2 ^ w - 1 else 0)

/-- `encode` for a `w`-bit signed integer: `0` encodes to the single
byte `0x00`, any other value to the varint of its zigzag magnitude. -/
def sEncode (w : Nat) (v : Int) : List Nat :=
  if v = 0 then [0] else encodeZig (zigzag w v)

/-- `i32::encode`. -/
def i32Encode : Int → List Nat := sEncode 32

/-- `i64::encode`. -/
def i64Encode : Int → List Nat := sEncode 64

/-- `usize::encode`: same loop, but the magnitude is `*self << 1`
directly (no sign fold), reduced modulo `2^64` as the source comment
("this drops the MSB") warns. -/
def usizeEncode (n : Nat) : List Nat :=
  if n = 0 then [0] else encodeZig ((2 * n) % 2 ^ 64)

/-- The `loop` of `decode`: or the low seven bits of each byte into the
accumulator at position `7 * count`, stop at the first byte whose
continuation bit is clear, fail when the stream is exhausted.  The
shift is a `w`-bit machine shift: amount masked by `w`, result
truncated to `w` bits (Rust release-profile semantics). -/
def decodeLoop (w : Nat) : List Nat → Nat → Nat → Option Nat × List Nat
  | [], _, _ => (none, [])
  | b :: rest, vint, count =>
    if b &&& 0x80 = 0 then
      (some (vint ||| (((b &&& 0x7F) <<< ((7 * count) % w)) % 2 ^ w)), rest)
    else
      decodeLoop w rest (vint ||| (((b &&& 0x7F) <<< ((7 * count) % w)) % 2 ^ w))
        (count + 1)

/-- Reinterpret a `w`-bit unsigned value as a signed one (`as i32` /
`as i64`). -/
def toSigned (w : Nat) (u : Nat) : Int :=
  if u < 2 ^ (w - 1) then (u : Int) else (u : Int) - 2 ^ w

/-- `decode` for a `w`-bit signed integer: run the varint loop, then
undo the zigzag: an odd accumulator denotes a negative number, decoded
as `(vint >> 1) as iw ^ -1` (`Int.xor` with `-1` is the two's-complement
bitwise complement); an even one decodes as `(vint >> 1) as iw`. -/
def sDecode (w : Nat) (s : List Nat) : Option Int × List Nat :=
  match decodeLoop w s 0 0 with
  | (none, r) => (none, r)
  | (some vint, r) =>
    if vint &&& 1 = 1 then (some (Int.xor (toSigned w (vint >>> 1)) (-1)), r)
    else (some (toSigned w (vint >>> 1)), r)

/-- `i32::decode`. -/
def i32Decode : List Nat → Option Int × List Nat := sDecode 32

/-- `i64::decode`. -/
def i64Decode : List Nat → Option Int × List Nat := sDecode 64

/-- `i32::abs` at Rust release semantics: the absolute value, except
that `i32::MIN` wraps to itself. -/
def absI32 (x : Int) : Int :=
  if x = -(2 ^ 31) then x else if x < 0 then -x else x

/-- `as usize` on an `i32`: sign-extend to 64 bits and reinterpret. -/
def castI32Usize (x : Int) : Nat :=
  (x % ((2 : Int) ^ 64)).toNat

/-- `usize::decode`: `i32::decode(bytes).map(|x| x.abs() as usize)`. -/
def usizeDecode (s : List Nat) : Option Nat × List Nat :=
  match i32Decode s with
  | (none, r) => (none, r)
  | (some x, r) => (some (castI32Usize (absI32 x)), r)

/-- `f32::encode`: the value's IEEE-754 bit pattern (an `f32` value is
modelled by its 32-bit pattern, which the codec never interprets
numerically) emitted as four little-endian bytes, as `transmute` does
on the little-endian host. -/
def f32Encode (p : Nat) : List Nat :=
  [p % 256, p / 2 ^ 8 % 256, p / 2 ^ 16 % 256, p / 2 ^ 24 % 256]

/-- `f32::decode`: pull four bytes (failing if the stream runs out
first) and reassemble the little-endian bit pattern. -/
def f32Decode : List Nat → Option Nat × List Nat
  | b1 :: b2 :: b3 :: b4 :: rest =>
    (some (b1 + 2 ^ 8 * b2 + 2 ^ 16 * b3 + 2 ^ 24 * b4), rest)
  | _ => (none, [])

/-- `f64::encode`: the 64-bit pattern as eight little-endian bytes. -/
def f64Encode (p : Nat) : List Nat :=
  [p % 256, p / 2 ^ 8 % 256, p / 2 ^ 16 % 256, p / 2 ^ 24 % 256,
   p / 2 ^ 32 % 256, p / 2 ^ 40 % 256, p / 2 ^ 48 % 256, p / 2 ^ 56 % 256]

/-- `f64::decode`: pull eight bytes and reassemble the pattern. -/
def f64Decode : List Nat → Option Nat × List Nat
  | b1 :: b2 :: b3 :: b4 :: b5 :: b6 :: b7 :: b8 :: rest =>
    (some (b1 + 2 ^ 8 * b2 + 2 ^ 16 * b3 + 2 ^ 24 * b4 + 2 ^ 32 * b5 +
           2 ^ 40 * b6 + 2 ^ 48 * b7 + 2 ^ 56 * b8), rest)
  | _ => (none, [])

/-- A UTF-8 continuation byte, `0x80`–`0xBF`. -/
def isCont (b : Nat) : Bool :=
  decide (0x80 ≤ b ∧ b ≤ 0xBF)

/-- The validity check performed by `String::from_utf8` (RFC 3629
well-formed UTF-8: no overlong forms, no surrogates, at most
`U+10FFFF`).  A string value is modelled by its UTF-8 byte sequence. -/
def validUtf8 : List Nat → Bool
  | [] => true
  | b :: rest =>
    if b < 0x80 then validUtf8 rest
    else if 0xC2 ≤ b ∧ b ≤ 0xDF then
      match rest with
      | c1 :: r => isCont c1 && validUtf8 r
      | [] => false
    else if b = 0xE0 then
      match rest with
      | c1 :: c2 :: r => decide (0xA0 ≤ c1 ∧ c1 ≤ 0xBF) && isCont c2 && validUtf8 r
      | _ => false
    else if (0xE1 ≤ b ∧ b ≤ 0xEC) ∨ b = 0xEE ∨ b = 0xEF then
      match rest with
      | c1 :: c2 :: r => isCont c1 && isCont c2 && validUtf8 r
      | _ => false
    else if b = 0xED then
      match rest with
      | c1 :: c2 :: r => decide (0x80 ≤ c1 ∧ c1 ≤ 0x9F) && isCont c2 && validUtf8 r
      | _ => false
    else if b = 0xF0 then
      match rest with
      | c1 :: c2 :: c3 :: r =>
        decide (0x90 ≤ c1 ∧ c1 ≤ 0xBF) && isCont c2 && isCont c3 && validUtf8 r
      | _ => false
    else if 0xF1 ≤ b ∧ b ≤ 0xF3 then
      match rest with
      | c1 :: c2 :: c3 :: r => isCont c1 && isCont c2 && isCont c3 && validUtf8 r
      | _ => false
    else if b = 0xF4 then
      match rest with
      | c1 :: c2 :: c3 :: r =>
        decide (0x80 ≤ c1 ∧ c1 ≤ 0x8F) && isCont c2 && isCont c3 && validUtf8 r
      | _ => false
    else false

/-- `String::encode`: the byte length via the `usize` codec, then the
raw UTF-8 bytes. -/
def stringEncode (s : List Nat) : List Nat :=
  usizeEncode s.length ++ s

/-- `String::decode`: decode a length, `take` that many bytes from the
cursor (consuming `min(len, available)` of them), fail if fewer were
available or if the collected bytes are not valid UTF-8. -/
def stringDecode (bytes : List Nat) : Option (List Nat) × List Nat :=
  match usizeDecode bytes with
  | (none, r) => (none, r)
  | (some len, r) =>
    let strdata := r.take len
    if strdata.length < len then (none, r.drop len)
    else if validUtf8 strdata then (some strdata, r.drop len)
    else (none, r.drop len)

/-- `bool::encode`. -/
def boolEncode (b : Bool) : List Nat :=
  if b then [0x1] else [0x0]

/-- `bool::decode`: `0x00 → false`, `0x01 → true`, anything else
(or exhaustion) fails. -/
def boolDecode : List Nat → Option Bool × List Nat
  | [] => (none, [])
  | b :: rest =>
    if b = 0 then (some false, rest)
    else if b = 1 then (some true, rest)
    else (none, rest)

/-- `u8::encode`. -/
def u8Encode (b : Nat) : List Nat := [b]

/-- `u8::decode`: `bytes.next()`. -/
def u8Decode : List Nat → Option Nat × List Nat
  | [] => (none, [])
  | b :: rest => (some b, rest)

/-- `Vec::<T>::encode`, parametric over the element encoder: the length
via the `usize` codec, then each element's encoding in order. -/
def vecEncode {T : Type} (encT : T → List Nat) (v : List T) : List Nat :=
  usizeEncode v.length ++ (v.map encT).flatten

/-- The `while len > 0` loop of `Vec::<T>::decode`. -/
def vecDecodeLoop {T : Type} (decT : List Nat → Option T × List Nat) :
    Nat → List Nat → Option (List T) × List Nat
  | 0, s => (some [], s)
  | n + 1, s =>
    match decT s with
    | (some x, r) =>
      match vecDecodeLoop decT n r with
      | (some xs, r2) => (some (x :: xs), r2)
      | (none, r2) => (none, r2)
    | (none, r) => (none, r)

/-- `Vec::<T>::decode`: decode a count, then that many elements. -/
def vecDecode {T : Type} (decT : List Nat → Option T × List Nat)
    (s : List Nat) : Option (List T) × List Nat :=
  match usizeDecode s with
  | (none, r) => (none, r)
  | (some len, r) => vecDecodeLoop decT len r

/-- `HashMap::insert`: overwrite the value of an existing key, else
append the new entry.  A map is modelled as an association list; the
unspecified `HashMap` iteration order becomes the list order. -/
def insertA {T : Type} : List (List Nat × T) → List Nat → T → List (List Nat × T)
  | [], k, v => [(k, v)]
  | (k0, v0) :: rest, k, v =>
    if k0 = k then (k, v) :: rest else (k0, v0) :: insertA rest k v

/-- The entry serialisation loop of `HashMap::encode`: each key's
string encoding followed by the value's encoding. -/
def mapEntriesEncode {T : Type} (encT : T → List Nat) :
    List (List Nat × T) → List Nat
  | [] => []
  | (k, v) :: rest => stringEncode k ++ encT v ++ mapEntriesEncode encT rest

/-- `HashMap::encode`: an empty map is the single byte `0x00`;
otherwise the entry count, the entries, and one extra terminating zero
byte. -/
def mapEncode {T : Type} (encT : T → List Nat) (m : List (List Nat × T)) :
    List Nat :=
  if m.isEmpty then [0x0]
  else usizeEncode m.length ++ mapEntriesEncode encT m ++ [0x0]

/-- The `while len > 0` loop of `HashMap::decode`.  As in the source,
the key and value decoders both run (in that order, against the same
cursor) before the pair of outcomes is examined. -/
def mapDecodeLoop {T : Type} (decT : List Nat → Option T × List Nat) :
    Nat → List Nat → List (List Nat × T) → Option (List (List Nat × T)) × List Nat
  | 0, s, acc => (some acc, s)
  | n + 1, s, acc =>
    let p1 := stringDecode s
    let p2 := decT p1.2
    match p1.1, p2.1 with
    | some k, some v => mapDecodeLoop decT n p2.2 (insertA acc k v)
    | _, _ => (none, p2.2)

/-- `HashMap::decode`: decode a count; zero yields the empty map
immediately; otherwise decode exactly that many (key, value) pairs and
insert them.  No terminating byte is consumed. -/
def mapDecode {T : Type} (decT : List Nat → Option T × List Nat)
    (s : List Nat) : Option (List (List Nat × T)) × List Nat :=
  match usizeDecode s with
  | (none, r) => (none, r)
  | (some 0, r) => (some [], r)
  | (some len, r) => mapDecodeLoop decT len r []

/-- Well-formedness of a varint byte sequence: non-empty, every byte
except the last has the continuation bit `0x80` set, and the last byte
has it clear. -/
def wfVarint : List Nat → Bool
  | [] => false
  | [b] => b &&& 0x80 = 0
  | b :: b' :: rest => (decide (b &&& 0x80 ≠ 0)) && wfVarint (b' :: rest)

/-! ### Bit-level helper lemmas -/

lemma lor_mul_two_pow {a k : Nat} (b : Nat) (h : a < 2 ^ k) :
    a ||| b * 2 ^ k = a + b * 2 ^ k := by
  calc a ||| b * 2 ^ k = b * 2 ^ k ||| a := Nat.or_comm _ _
    _ = 2 ^ k * b ||| a := by rw [Nat.mul_comm]
    _ = 2 ^ k * b + a := (Nat.mul_add_lt_is_or h b).symm
    _ = a + b * 2 ^ k := by rw [Nat.mul_comm]; omega

lemma xor_all_ones {w a : Nat} (h : a < 2 ^ w) :
    a ^^^ (2 ^ w - 1) = 2 ^ w - 1 - a := by
  apply Nat.eq_of_testBit_eq
  intro i
  rw [show 2 ^ w - 1 - a = 2 ^ w - (a + 1) by omega,
    Nat.testBit_two_pow_sub_succ h, Nat.testBit_xor, Nat.testBit_two_pow_sub_one]
  by_cases hi : i < w
  · simp [hi]
  · have hwi : (2 : Nat) ^ w ≤ 2 ^ i := Nat.pow_le_pow_right (by norm_num) (le_of_not_lt hi)
    simp [hi, Nat.testBit_lt_two_pow (lt_of_lt_of_le h hwi)]

lemma and_two_pow_eq_zero {a k : Nat} (h : a.testBit k = false) : a &&& 2 ^ k = 0 := by
  apply Nat.eq_of_testBit_eq
  intro i
  rw [Nat.testBit_and, Nat.testBit_two_pow, Nat.zero_testBit]
  by_cases hik : k = i
  · subst hik; simp [h]
  · simp [hik]

lemma lor_xor_two_pow {d k : Nat} (h : d.testBit k = false) :
    (d ||| 2 ^ k) ^^^ 2 ^ k = d := by
  apply Nat.eq_of_testBit_eq
  intro i
  rw [Nat.testBit_xor, Nat.testBit_lor, Nat.testBit_two_pow]
  by_cases hik : k = i
  · subst hik; simp [h]
  · simp [hik]

lemma byte_low (x : Nat) : ((x ||| 0x80) % 256) &&& 0x7F = x % 128 := by
  have h1 : ((x ||| 0x80) % 256) &&& 0x7F = ((x ||| 0x80) % 256) % 128 := by
    rw [show (0x7F : Nat) = 2 ^ 7 - 1 by norm_num, Nat.and_pow_two_sub_one_eq_mod]
  have h2 : ((x ||| 0x80) % 256) % 128 = (x ||| 0x80) % 128 :=
    Nat.mod_mod_of_dvd _ (by norm_num)
  have h3 : (x ||| 0x80) % 128 = (x ||| 0x80) &&& 0x7F := by
    rw [show (0x7F : Nat) = 2 ^ 7 - 1 by norm_num, Nat.and_pow_two_sub_one_eq_mod]
  have h4 : (x ||| 0x80) &&& 0x7F = (x &&& 0x7F) ||| (0x80 &&& 0x7F) :=
    Nat.and_distrib_right x 0x80 0x7F
  rw [h1, h2, h3, h4]
  have h5 : (0x80 : Nat) &&& 0x7F = 0 := by decide
  rw [h5, Nat.or_zero, show (0x7F : Nat) = 2 ^ 7 - 1 by norm_num,
    Nat.and_pow_two_sub_one_eq_mod]

lemma byte_cont (x : Nat) : ((x ||| 0x80) % 256) &&& 0x80 ≠ 0 := by
  intro h
  have hb : ((x ||| 0x80) % 256).testBit 7 = true := by
    rw [show (256 : Nat) = 2 ^ 8 by norm_num, Nat.testBit_mod_two_pow, Nat.testBit_lor,
      show (0x80 : Nat) = 2 ^ 7 by norm_num, Nat.testBit_two_pow_self]
    simp
  have h2 := congrArg (fun n => n.testBit 7) h
  simp only [Nat.testBit_and, Nat.zero_testBit, hb, Bool.true_and] at h2
  exact absurd h2 (by decide)

/-! ### Varint round-trip -/

lemma varintBytes_ne_nil {u : Nat} (h : u ≠ 0) : varintBytes u ≠ [] := by
  rw [varintBytes_eq]
  simp [h]

lemma finishEncode_cons {b : Nat} {l : List Nat} (h : l ≠ []) :
    finishEncode (b :: l) = b :: finishEncode l := by
  cases l with
  | nil => exact absurd rfl h
  | cons c l' => rfl

lemma shift7_lt {u c w : Nat} (hu : 0 < u) (hb : u * 2 ^ (7 * c) < 2 ^ w) :
    7 * c < w := by
  have h1 : (2 : Nat) ^ (7 * c) ≤ u * 2 ^ (7 * c) := Nat.le_mul_of_pos_left _ hu
  exact (Nat.pow_lt_pow_iff_right (by norm_num)).mp (lt_of_le_of_lt h1 hb)

/-- Decoding the varint emission of a nonzero magnitude `u` that fits in
the width accumulates `u` shifted into the bits above `7 * count` and
consumes exactly the emitted bytes. -/
lemma decodeLoop_encodeZig (w : Nat) :
    ∀ u, 0 < u → ∀ count vint (rest : List Nat), vint < 2 ^ (7 * count) →
      u * 2 ^ (7 * count) < 2 ^ w →
      decodeLoop w (encodeZig u ++ rest) vint count
        = (some (vint + u * 2 ^ (7 * count)), rest) := by
  intro u
  induction u using Nat.strong_induction_on with
  | _ u ih =>
    intro hu count vint rest hv hb
    have h7c : 7 * count < w := shift7_lt hu hb
    have hmodw : (7 * count) % w = 7 * count := Nat.mod_eq_of_lt h7c
    by_cases hq : u >>> 7 = 0
    · -- final byte: u < 0x80, the loop emitted a single byte
      have hu128 : u < 128 := by
        rw [Nat.shiftRight_eq_div_pow] at hq
        norm_num at hq
        omega
      have h128 : u < 2 ^ 7 := by norm_num; omega
      have hb7 : u.testBit 7 = false := Nat.testBit_lt_two_pow h128
      have hvb : varintBytes u = [(u ||| 0x80) % 256] := by
        rw [varintBytes_eq]
        simp [Nat.pos_iff_ne_zero.mp hu, hq, varintBytes_eq]
      have hlt : u ||| 0x80 < 256 := by
        have := Nat.or_lt_two_pow (x := u) (y := 0x80) (n := 8) (by omega) (by norm_num)
        simpa using this
      have hbyte : (u ||| 0x80) % 256 = u ||| 0x80 := Nat.mod_eq_of_lt hlt
      have hxor : (u ||| 0x80) ^^^ 0x80 = u := by
        have := lor_xor_two_pow (d := u) (k := 7) hb7
        simpa using this
      have hlist : encodeZig u = [u] := by
        rw [encodeZig, hvb]
        simp only [finishEncode, hbyte, hxor]
      rw [hlist, List.cons_append, List.nil_append, decodeLoop]
      have hand : u &&& 0x80 = 0 := by
        have := and_two_pow_eq_zero (a := u) (k := 7) hb7
        simpa using this
      rw [if_pos hand]
      have hlow : u &&& 0x7F = u := by
        have := Nat.and_pow_two_sub_one_of_lt_two_pow h128
        simpa using this
      rw [hlow, hmodw, Nat.shiftLeft_eq, Nat.mod_eq_of_lt hb, lor_mul_two_pow u hv]
    · -- continuation byte followed by the emission of `u >>> 7`
      have hq' : 0 < u >>> 7 := Nat.pos_iff_ne_zero.mpr hq
      have hq2 : u >>> 7 = u / 128 := by
        rw [Nat.shiftRight_eq_div_pow]
      have hvb : varintBytes u = ((u ||| 0x80) % 256) :: varintBytes (u >>> 7) := by
        rw [varintBytes_eq]
        simp [Nat.pos_iff_ne_zero.mp hu]
      have hfe : encodeZig u = ((u ||| 0x80) % 256) :: encodeZig (u >>> 7) := by
        rw [encodeZig, hvb, finishEncode_cons (varintBytes_ne_nil hq)]
        rfl
      rw [hfe, List.cons_append, decodeLoop, if_neg (byte_cont u), byte_low, hmodw]
      have hshift : ((u % 128) <<< (7 * count)) % 2 ^ w = u % 128 * 2 ^ (7 * count) := by
        rw [Nat.shiftLeft_eq]
        exact Nat.mod_eq_of_lt (lt_of_le_of_lt
          (Nat.mul_le_mul_right _ (Nat.mod_le u 128)) hb)
      rw [hshift, lor_mul_two_pow _ hv]
      have h77 : (2 : Nat) ^ (7 * (count + 1)) = 2 ^ (7 * count) * 128 := by
        rw [show 7 * (count + 1) = 7 * count + 7 by ring, pow_add]
        norm_num
      have hv' : vint + u % 128 * 2 ^ (7 * count) < 2 ^ (7 * (count + 1)) := by
        rw [h77]
        calc vint + u % 128 * 2 ^ (7 * count)
            < 2 ^ (7 * count) + u % 128 * 2 ^ (7 * count) := Nat.add_lt_add_right hv _
          _ ≤ 2 ^ (7 * count) + 127 * 2 ^ (7 * count) :=
              Nat.add_le_add_left (Nat.mul_le_mul_right _ (by omega)) _
          _ = 2 ^ (7 * count) * 128 := by ring
      have hb' : u >>> 7 * 2 ^ (7 * (count + 1)) < 2 ^ w := by
        rw [hq2, h77]
        calc u / 128 * (2 ^ (7 * count) * 128)
            = u / 128 * 128 * 2 ^ (7 * count) := by ring
          _ ≤ u * 2 ^ (7 * count) := Nat.mul_le_mul_right _ (Nat.div_mul_le_self u 128)
          _ < 2 ^ w := hb
      have hlt : u >>> 7 < u := by
        rw [hq2]
        exact Nat.div_lt_self hu (by norm_num)
      rw [ih (u >>> 7) hlt hq' (count + 1) _ rest hv' hb']
      have harith : vint + u % 128 * 2 ^ (7 * count) +
          u / 128 * (2 ^ (7 * count) * 128) = vint + u * 2 ^ (7 * count) := by
        conv_rhs => rw [← Nat.mod_add_div u 128]
        ring
      rw [hq2, h77, harith]

/-- The varint round-trip with the cursor initially at rest: decoding
the emission of any nonzero `u < 2^w` yields `u` and leaves exactly the
trailing stream. -/
lemma decodeLoop_encodeZig0 {w u : Nat} (h0 : 0 < u) (hw : u < 2 ^ w)
    (rest : List Nat) :
    decodeLoop w (encodeZig u ++ rest) 0 0 = (some u, rest) := by
  have := decodeLoop_encodeZig w u h0 0 0 rest (by simp) (by simpa using hw)
  simpa using this

/-! ### Zigzag characterisation and the signed round-trip -/

/-- On the representable range the machine-level zigzag computation is
the textbook map: non-negative values double, negative values go to
`2 * |v| - 1`. -/
lemma zigzag_eq {w : Nat} (hw : 0 < w) {v : Int} (h1 : -((2 ^ (w - 1) : Nat) : Int) ≤ v)
    (h2 : v < ((2 ^ (w - 1) : Nat) : Int)) :
    zigzag w v = if 0 ≤ v then (2 * v).toNat else (2 * (-v) - 1).toNat := by
  have hcast : (((2 : Nat) ^ w : Nat) : Int) = (2 : Int) ^ w := by push_cast; ring
  have hcast1 : (((2 : Nat) ^ (w - 1) : Nat) : Int) = (2 : Int) ^ (w - 1) := by
    push_cast; ring
  have hhalf : (2 : Nat) ^ w = 2 * 2 ^ (w - 1) := by
    conv_lhs => rw [show w = (w - 1) + 1 by omega]
    rw [pow_succ]
    ring
  by_cases hv : 0 ≤ v
  · rw [if_pos hv]
    have hmod : v % (2 : Int) ^ w = v := by
      apply Int.emod_eq_of_lt hv
      rw [← hcast]
      omega
    rw [zigzag, hmod, if_neg (by omega : ¬ v < 0), Nat.xor_zero]
    have hlt : 2 * v.toNat < 2 ^ w := by omega
    rw [Nat.mod_eq_of_lt hlt]
    omega
  · rw [if_neg hv]
    have hmod : v % (2 : Int) ^ w = v + 2 ^ w := by
      have hself : (v + (2 : Int) ^ w) % (2 : Int) ^ w = v % 2 ^ w := by
        conv_lhs => rw [show v + (2 : Int) ^ w = v + 2 ^ w * 1 by ring]
        exact Int.add_mul_emod_self_left v ((2 : Int) ^ w) 1
      rw [← hself]
      apply Int.emod_eq_of_lt
      · rw [← hcast]; omega
      · omega
    rw [zigzag, hmod, if_pos (by omega : v < 0)]
    have htn : (v + (2 : Int) ^ w).toNat = 2 ^ w - (-v).toNat := by
      rw [← hcast]; omega
    rw [htn]
    have hsplit : 2 * (2 ^ w - (-v).toNat) = (2 ^ w - 2 * (-v).toNat) + 1 * 2 ^ w := by
      omega
    rw [hsplit, Nat.add_mul_mod_self_right]
    have hlt : 2 ^ w - 2 * (-v).toNat < 2 ^ w := by omega
    rw [Nat.mod_eq_of_lt hlt, xor_all_ones hlt]
    omega

/-- Xor with `-1` on two's-complement integers is `fun x => -x - 1`. -/
lemma intXor_neg_one (t : Nat) : Int.xor (t : Int) (-1) = -(t : Int) - 1 := by
  show Int.xor (Int.ofNat t) (Int.negSucc 0) = -(t : Int) - 1
  rw [show Int.xor (Int.ofNat t) (Int.negSucc 0) = Int.negSucc (t ^^^ 0) from rfl,
    Nat.xor_zero, Int.negSucc_eq]
  ring

/-- The `w`-bit signed codec round-trips every representable value and
consumes exactly its own encoding. -/
lemma sEncDec {w : Nat} (hw : 0 < w) {v : Int}
    (h1 : -((2 ^ (w - 1) : Nat) : Int) ≤ v) (h2 : v < ((2 ^ (w - 1) : Nat) : Int))
    (rest : List Nat) :
    sDecode w (sEncode w v ++ rest) = (some v, rest) := by
  have hhalf : (2 : Nat) ^ w = 2 * 2 ^ (w - 1) := by
    conv_lhs => rw [show w = (w - 1) + 1 by omega]
    rw [pow_succ]
    ring
  by_cases hv0 : v = 0
  · subst hv0
    rw [sEncode, if_pos rfl]
    have hloop : decodeLoop w ([0] ++ rest) 0 0 = (some 0, rest) := by
      rw [List.singleton_append, decodeLoop]
      simp
    simp only [sDecode]
    rw [hloop]
    simp [toSigned, Nat.two_pow_pos]
  · have hzeq := zigzag_eq hw h1 h2
    have hz0 : 0 < zigzag w v := by
      rw [hzeq]
      split_ifs <;> omega
    have hzlt : zigzag w v < 2 ^ w := by
      rw [hzeq]
      split_ifs <;> omega
    rw [sEncode, if_neg hv0]
    have hloop := decodeLoop_encodeZig0 (w := w) hz0 hzlt rest
    simp only [sDecode]
    rw [hloop]
    by_cases hv : 0 ≤ v
    · have hz : zigzag w v = 2 * v.toNat := by
        rw [hzeq, if_pos hv]
        omega
      rw [hz]
      have hcond : ¬ (2 * v.toNat &&& 1 = 1) := by
        rw [Nat.and_one_is_mod]
        omega
      have hshr : (2 * v.toNat) >>> 1 = v.toNat := by
        rw [Nat.shiftRight_eq_div_pow, pow_one]
        omega
      have ht : v.toNat < 2 ^ (w - 1) := by omega
      simp [hcond, hshr, toSigned, ht, Int.toNat_of_nonneg hv]
    · have hz : zigzag w v = 2 * (-v).toNat - 1 := by
        rw [hzeq, if_neg hv]
        omega
      rw [hz]
      have hcond : (2 * (-v).toNat - 1) &&& 1 = 1 := by
        rw [Nat.and_one_is_mod]
        omega
      have hshr : (2 * (-v).toNat - 1) >>> 1 = (-v).toNat - 1 := by
        rw [Nat.shiftRight_eq_div_pow, pow_one]
        omega
      have ht : (-v).toNat - 1 < 2 ^ (w - 1) := by omega
      simp [hcond, hshr, toSigned, ht, intXor_neg_one]
      omega

/-- `i32` round-trip, with the cursor left exactly past the encoding. -/
lemma i32_roundtrip_append {v : Int} (h1 : -(2 ^ 31) ≤ v) (h2 : v < 2 ^ 31)
    (rest : List Nat) :
    i32Decode (i32Encode v ++ rest) = (some v, rest) := by
  have := sEncDec (w := 32) (by norm_num) (v := v) (by push_cast; omega)
    (by push_cast; omega) rest
  exact this

/-- `i64` round-trip, with the cursor left exactly past the encoding. -/
lemma i64_roundtrip_append {v : Int} (h1 : -(2 ^ 63) ≤ v) (h2 : v < 2 ^ 63)
    (rest : List Nat) :
    i64Decode (i64Encode v ++ rest) = (some v, rest) := by
  have := sEncDec (w := 64) (by norm_num) (v := v) (by push_cast; omega)
    (by push_cast; omega) rest
  exact this

/-- `usize` round-trip below `2^31`, with the cursor left exactly past
the encoding. -/
lemma usize_roundtrip_append {n : Nat} (h : n < 2 ^ 31) (rest : List Nat) :
    usizeDecode (usizeEncode n ++ rest) = (some n, rest) := by
  by_cases hn0 : n = 0
  · subst hn0
    rw [usizeEncode, if_pos rfl]
    have hloop : decodeLoop 32 ([0] ++ rest) 0 0 = (some 0, rest) := by
      rw [List.singleton_append, decodeLoop]
      simp
    simp only [usizeDecode, i32Decode, sDecode]
    rw [hloop]
    simp [toSigned, absI32, castI32Usize]
  · rw [usizeEncode, if_neg hn0]
    have h2n : 2 * n % 2 ^ 64 = 2 * n := Nat.mod_eq_of_lt (by omega)
    rw [h2n]
    have hloop := decodeLoop_encodeZig0 (w := 32) (u := 2 * n)
      (by omega) (by norm_num; omega) rest
    simp only [usizeDecode, i32Decode, sDecode]
    rw [hloop]
    have hcond : ¬ (2 * n &&& 1 = 1) := by
      rw [Nat.and_one_is_mod]
      omega
    have hshr : (2 * n) >>> 1 = n := by
      rw [Nat.shiftRight_eq_div_pow, pow_one]
      omega
    have ht : n < 2147483648 := by omega
    have hne : ¬((n : Int) = -2147483648) := by omega
    have hneg : ¬((n : Int) < 0) := by omega
    have hmod : (n : Int) % 18446744073709551616 = (n : Int) :=
      Int.emod_eq_of_lt (by omega) (by omega)
    simp [hcond, hshr, toSigned, ht, absI32, castI32Usize, hne, hneg, hmod]

/-! ### Claim theorems -/

/-- C1: for every representable signed integer of a given width (every
`i32` and every `i64` value `v`), decoding the encoding of `v` yields
exactly `v`. -/
theorem signed_decode_encode_roundtrip :
    (∀ v : Int, -(2 ^ 31) ≤ v → v < 2 ^ 31 →
      i32Decode (i32Encode v) = (some v, [])) ∧
    (∀ v : Int, -(2 ^ 63) ≤ v → v < 2 ^ 63 →
      i64Decode (i64Encode v) = (some v, [])) := by
  constructor
  · intro v h1 h2
    simpa using i32_roundtrip_append h1 h2 []
  · intro v h1 h2
    simpa using i64_roundtrip_append h1 h2 []

theorem signed_decode_encode_roundtrip_witness :
    i32Decode (i32Encode (-2147483648)) = (some (-2147483648), []) ∧
    i64Decode (i64Encode 9223372036854775807) = (some 9223372036854775807, []) :=
  ⟨signed_decode_encode_roundtrip.1 (-2147483648) (by norm_num) (by norm_num),
   signed_decode_encode_roundtrip.2 9223372036854775807 (by norm_num) (by norm_num)⟩

/-- C4: length encoding round-trips for every value strictly below
`2^31`. -/
theorem usize_decode_encode_roundtrip :
    ∀ n : Nat, n < 2 ^ 31 → usizeDecode (usizeEncode n) = (some n, []) := by
  intro n h
  simpa using usize_roundtrip_append h []

theorem usize_decode_encode_roundtrip_witness :
    usizeDecode (usizeEncode 123456) = (some 123456, []) :=
  usize_decode_encode_roundtrip 123456 (by norm_num)

/-- C7: floating-point round-trip is bit-exact for every 32-bit and
64-bit IEEE-754 bit pattern (finite, infinite, or NaN — the codec never
interprets the pattern, so every pattern is covered), and the encodings
are exactly 4 and 8 bytes long. -/
theorem float_roundtrip_bit_exact :
    (∀ p : Nat, p < 2 ^ 32 →
      f32Decode (f32Encode p) = (some p, []) ∧ (f32Encode p).length = 4) ∧
    (∀ p : Nat, p < 2 ^ 64 →
      f64Decode (f64Encode p) = (some p, []) ∧ (f64Encode p).length = 8) := by
  refine ⟨fun p hp => ⟨?_, rfl⟩, fun p hp => ⟨?_, rfl⟩⟩
  · simp only [f32Encode, f32Decode, Prod.mk.injEq, Option.some.injEq]
    norm_num
    omega
  · simp only [f64Encode, f64Decode, Prod.mk.injEq, Option.some.injEq]
    norm_num
    omega

theorem float_roundtrip_bit_exact_witness :
    f32Decode (f32Encode 0x7FC00000) = (some 0x7FC00000, []) ∧
    (f32Encode 0x7FC00000).length = 4 :=
  float_roundtrip_bit_exact.1 0x7FC00000 (by norm_num)

/-- C8: boolean decode is a strict two-symbol alphabet: `Some false`
exactly when the next byte is `0x00`, `Some true` exactly when it is
`0x01`, and `None` when the next byte is anything else or the cursor is
exhausted. -/
theorem bool_decode_strict_alphabet :
    ∀ s : List Nat,
      ((boolDecode s).1 = some false ↔ s.head? = some 0) ∧
      ((boolDecode s).1 = some true ↔ s.head? = some 1) ∧
      ((boolDecode s).1 = none ↔ s = [] ∨ ∃ b t, s = b :: t ∧ b ≠ 0 ∧ b ≠ 1) := by
  intro s
  cases s with
  | nil => simp [boolDecode]
  | cons b t =>
    by_cases hb0 : b = 0
    · subst hb0
      simp [boolDecode]
    · by_cases hb1 : b = 1
      · subst hb1
        simp [boolDecode]
      · refine ⟨by simp [boolDecode, hb0, hb1], by simp [boolDecode, hb0, hb1], ?_⟩
        simp only [boolDecode, if_neg hb0, if_neg hb1]
        constructor
        · intro _
          exact Or.inr ⟨b, t, rfl, hb0, hb1⟩
        · intro _
          trivial

/-! ### Totality and cursor discipline (suffix properties) -/

lemma decodeLoop_suffix (w : Nat) :
    ∀ (s : List Nat) (vint count : Nat), (decodeLoop w s vint count).2 <:+ s := by
  intro s
  induction s with
  | nil => intro vint count; simp [decodeLoop]
  | cons b t ih =>
    intro vint count
    rw [decodeLoop]
    by_cases hb : b &&& 0x80 = 0
    · rw [if_pos hb]
      exact List.suffix_cons b t
    · rw [if_neg hb]
      exact (ih _ _).trans (List.suffix_cons b t)

lemma sDecode_snd (w : Nat) (s : List Nat) :
    (sDecode w s).2 = (decodeLoop w s 0 0).2 := by
  rcases hd : decodeLoop w s 0 0 with ⟨o, r⟩
  cases o with
  | none => simp [sDecode, hd]
  | some vint =>
    simp only [sDecode, hd]
    split <;> rfl

lemma i32Decode_suffix (s : List Nat) : (i32Decode s).2 <:+ s := by
  rw [i32Decode, sDecode_snd]
  exact decodeLoop_suffix 32 s 0 0

lemma i64Decode_suffix (s : List Nat) : (i64Decode s).2 <:+ s := by
  rw [i64Decode, sDecode_snd]
  exact decodeLoop_suffix 64 s 0 0

lemma usizeDecode_snd (s : List Nat) : (usizeDecode s).2 = (i32Decode s).2 := by
  rcases hd : i32Decode s with ⟨o, r⟩
  cases o <;> simp [usizeDecode, hd]

lemma usizeDecode_suffix (s : List Nat) : (usizeDecode s).2 <:+ s := by
  rw [usizeDecode_snd]
  exact i32Decode_suffix s

lemma f32Decode_suffix (s : List Nat) : (f32Decode s).2 <:+ s := by
  rcases s with _ | ⟨b1, _ | ⟨b2, _ | ⟨b3, _ | ⟨b4, t⟩⟩⟩⟩ <;>
    simp [f32Decode] <;> try exact List.nil_suffix _
  exact ⟨[b1, b2, b3, b4], rfl⟩

lemma f64Decode_suffix (s : List Nat) : (f64Decode s).2 <:+ s := by
  rcases s with _ | ⟨b1, _ | ⟨b2, _ | ⟨b3, _ | ⟨b4, _ | ⟨b5, _ | ⟨b6, _ | ⟨b7,
    _ | ⟨b8, t⟩⟩⟩⟩⟩⟩⟩⟩ <;>
    simp [f64Decode] <;> try exact List.nil_suffix _
  exact ⟨[b1, b2, b3, b4, b5, b6, b7, b8], rfl⟩

lemma stringDecode_suffix (s : List Nat) : (stringDecode s).2 <:+ s := by
  rcases hd : usizeDecode s with ⟨o, r⟩
  have hr : r <:+ s := by
    have := usizeDecode_suffix s
    rwa [hd] at this
  cases o with
  | none => simpa [stringDecode, hd] using hr
  | some len =>
    have hdrop : List.drop len r <:+ s := (List.drop_suffix len r).trans hr
    simp only [stringDecode, hd]
    split
    · exact hdrop
    · split
      · exact hdrop
      · exact hdrop

lemma boolDecode_suffix (s : List Nat) : (boolDecode s).2 <:+ s := by
  rcases s with _ | ⟨b, t⟩
  · simp [boolDecode]
  · rw [boolDecode]
    split
    · exact List.suffix_cons b t
    · split
      · exact List.suffix_cons b t
      · exact List.suffix_cons b t

lemma u8Decode_suffix (s : List Nat) : (u8Decode s).2 <:+ s := by
  rcases s with _ | ⟨b, t⟩
  · simp [u8Decode]
  · exact List.suffix_cons b t

lemma vecDecodeLoop_suffix {T : Type} (decT : List Nat → Option T × List Nat)
    (hdec : ∀ t, (decT t).2 <:+ t) :
    ∀ (len : Nat) (s : List Nat), (vecDecodeLoop decT len s).2 <:+ s := by
  intro len
  induction len with
  | zero => intro s; simp [vecDecodeLoop]
  | succ n ih =>
    intro s
    rcases hd : decT s with ⟨o, r⟩
    have hr : r <:+ s := by
      have := hdec s
      rwa [hd] at this
    cases o with
    | none => simpa [vecDecodeLoop, hd] using hr
    | some x =>
      rcases hl : vecDecodeLoop decT n r with ⟨o2, r2⟩
      have hr2 : r2 <:+ r := by
        have := ih r
        rwa [hl] at this
      cases o2 <;> simpa [vecDecodeLoop, hd, hl] using hr2.trans hr

lemma vecDecode_suffix {T : Type} (decT : List Nat → Option T × List Nat)
    (hdec : ∀ t, (decT t).2 <:+ t) (s : List Nat) :
    (vecDecode decT s).2 <:+ s := by
  rcases hd : usizeDecode s with ⟨o, r⟩
  have hr : r <:+ s := by
    have := usizeDecode_suffix s
    rwa [hd] at this
  cases o with
  | none => simpa [vecDecode, hd] using hr
  | some len =>
    simp only [vecDecode, hd]
    exact (vecDecodeLoop_suffix decT hdec len r).trans hr

lemma mapDecodeLoop_suffix {T : Type} (decT : List Nat → Option T × List Nat)
    (hdec : ∀ t, (decT t).2 <:+ t) :
    ∀ (len : Nat) (s : List Nat) (acc : List (List Nat × T)),
      (mapDecodeLoop decT len s acc).2 <:+ s := by
  intro len
  induction len with
  | zero => intro s acc; simp [mapDecodeLoop]
  | succ n ih =>
    intro s acc
    rcases hs : stringDecode s with ⟨ok, r1⟩
    have hr1 : r1 <:+ s := by
      have := stringDecode_suffix s
      rwa [hs] at this
    rcases hv : decT r1 with ⟨ov, r2⟩
    have hr2 : r2 <:+ s := by
      have := hdec r1
      rw [hv] at this
      exact this.trans hr1
    cases ok with
    | none => simpa [mapDecodeLoop, hs, hv] using hr2
    | some k =>
      cases ov with
      | none => simpa [mapDecodeLoop, hs, hv] using hr2
      | some v =>
        simp only [mapDecodeLoop, hs, hv]
        exact (ih r2 (insertA acc k v)).trans hr2

lemma mapDecode_suffix {T : Type} (decT : List Nat → Option T × List Nat)
    (hdec : ∀ t, (decT t).2 <:+ t) (s : List Nat) :
    (mapDecode decT s).2 <:+ s := by
  rcases hd : usizeDecode s with ⟨o, r⟩
  have hr : r <:+ s := by
    have := usizeDecode_suffix s
    rwa [hd] at this
  cases o with
  | none => simpa [mapDecode, hd] using hr
  | some len =>
    cases len with
    | zero => simpa [mapDecode, hd] using hr
    | succ n =>
      simp only [mapDecode, hd]
      exact (mapDecodeLoop_suffix decT hdec (n + 1) r []).trans hr

/-- C2: every decode is a total function of the input stream — it
always returns either `some` value or `none` (it is a Lean function
into `Option`), and in both cases the cursor ends on a suffix of the
input: bytes are only ever consumed from the front, never rewound, and
no partial value escapes. The container decoders preserve this
discipline for every element decoder that has it. -/
theorem decode_total_cursor_suffix :
    ∀ s : List Nat,
      ((i32Decode s).1 = none ∨ ∃ v, (i32Decode s).1 = some v) ∧
      (i32Decode s).2 <:+ s ∧ (i64Decode s).2 <:+ s ∧ (usizeDecode s).2 <:+ s ∧
      (f32Decode s).2 <:+ s ∧ (f64Decode s).2 <:+ s ∧ (stringDecode s).2 <:+ s ∧
      (boolDecode s).2 <:+ s ∧ (u8Decode s).2 <:+ s ∧
      (∀ (T : Type) (decT : List Nat → Option T × List Nat),
        (∀ t, (decT t).2 <:+ t) →
        (vecDecode decT s).2 <:+ s ∧ (mapDecode decT s).2 <:+ s) := by
  intro s
  refine ⟨?_, i32Decode_suffix s, i64Decode_suffix s, usizeDecode_suffix s,
    f32Decode_suffix s, f64Decode_suffix s, stringDecode_suffix s,
    boolDecode_suffix s, u8Decode_suffix s,
    fun T decT hdec => ⟨vecDecode_suffix decT hdec s, mapDecode_suffix decT hdec s⟩⟩
  cases h : (i32Decode s).1 with
  | none => exact Or.inl rfl
  | some v => exact Or.inr ⟨v, rfl⟩

theorem decode_total_cursor_suffix_witness :
    (vecDecode (fun t => ((none : Option Nat), t)) [2, 7]).2 <:+ [2, 7] ∧
    (mapDecode (fun t => ((none : Option Nat), t)) [2, 7]).2 <:+ [2, 7] :=
  ((decode_total_cursor_suffix [2, 7]).2.2.2.2.2.2.2.2.2) Nat
    (fun t => (none, t)) (fun t => List.suffix_refl t)

/-- The varint decode loop fails with the stream fully consumed when
every remaining byte keeps the continuation bit set. -/
lemma decodeLoop_all_cont (w : Nat) :
    ∀ (s : List Nat) (vint count : Nat), (∀ b ∈ s, b &&& 0x80 ≠ 0) →
      decodeLoop w s vint count = (none, []) := by
  intro s
  induction s with
  | nil => intro vint count _; simp [decodeLoop]
  | cons b t ih =>
    intro vint count hall
    rw [decodeLoop, if_neg (hall b (by simp))]
    exact ih _ _ (fun b' hb' => hall b' (by simp [hb']))

/-- C3 amended: varint decode always terminates after at most as many
cursor reads as the stream holds (the cursor ends within the input),
and on a malformed varint whose continuation bit never clears it
consumes the entire remaining stream and then fails — there is no
5-byte / 10-byte per-value ceiling. -/
theorem varint_decode_bounded_by_stream :
    ∀ s : List Nat,
      (i32Decode s).2.length ≤ s.length ∧ (i64Decode s).2.length ≤ s.length ∧
      ((∀ b ∈ s, b &&& 0x80 ≠ 0) →
        i32Decode s = (none, []) ∧ i64Decode s = (none, [])) := by
  intro s
  refine ⟨(i32Decode_suffix s).length_le, (i64Decode_suffix s).length_le,
    fun hall => ⟨?_, ?_⟩⟩
  · simp [i32Decode, sDecode, decodeLoop_all_cont 32 s 0 0 hall]
  · simp [i64Decode, sDecode, decodeLoop_all_cont 64 s 0 0 hall]

theorem varint_decode_bounded_by_stream_witness :
    i32Decode [0x80, 0xFF] = (none, []) ∧ i64Decode [0x80, 0xFF] = (none, []) :=
  (varint_decode_bounded_by_stream [0x80, 0xFF]).2.2 (by decide)

/-- C3 counterexample: on this 7-byte stream `i32::decode` consumes all
7 bytes (the result cursor is empty) and succeeds, so it does not stop
after at most 5 cursor reads. -/
theorem varint_decode_exceeds_five_bytes :
    i32Decode [0x80, 0x80, 0x80, 0x80, 0x80, 0x80, 0x00] = (some 0, []) ∧
    5 < ([0x80, 0x80, 0x80, 0x80, 0x80, 0x80, 0x00] : List Nat).length := by
  constructor
  · decide
  · decide

/-! ### String and map round-trips -/

/-- A string of byte length below `2^31` whose bytes are valid UTF-8
round-trips, leaving the cursor exactly past its encoding. -/
lemma stringDecode_encode {k : List Nat} (hv : validUtf8 k = true)
    (hl : k.length < 2 ^ 31) (rest : List Nat) :
    stringDecode (stringEncode k ++ rest) = (some k, rest) := by
  rw [stringEncode, List.append_assoc]
  have hu := usize_roundtrip_append hl (k ++ rest)
  simp only [stringDecode, hu]
  simp [List.take_left, List.drop_left, hv]

lemma insertA_append {T : Type} :
    ∀ (acc : List (List Nat × T)) (k : List Nat) (v : T),
      (∀ kv ∈ acc, kv.1 ≠ k) → insertA acc k v = acc ++ [(k, v)] := by
  intro acc
  induction acc with
  | nil => intro k v _; rfl
  | cons kv0 rest ih =>
    intro k v h
    obtain ⟨k0, v0⟩ := kv0
    rw [insertA, if_neg (h (k0, v0) (by simp))]
    rw [ih k v (fun kv hkv => h kv (by simp [hkv]))]
    simp

lemma foldl_insertA {T : Type} :
    ∀ (m acc : List (List Nat × T)), (m.map Prod.fst).Nodup →
      (∀ kv ∈ m, ∀ kv' ∈ acc, kv'.1 ≠ kv.1) →
      m.foldl (fun a kv => insertA a kv.1 kv.2) acc = acc ++ m := by
  intro m
  induction m with
  | nil => intro acc _ _; simp
  | cons kv m' ih =>
    intro acc hnod hdisj
    obtain ⟨k, v⟩ := kv
    rw [List.foldl_cons]
    rw [insertA_append acc k v (fun kv' hkv' => hdisj (k, v) (by simp) kv' hkv')]
    rw [ih (acc ++ [(k, v)]) (by simpa using hnod.of_cons) ?_]
    · simp
    · intro kv2 hkv2 kv' hkv'
      rcases List.mem_append.mp hkv' with hacc | hhead
      · exact hdisj kv2 (by simp [hkv2]) kv' hacc
      · have hk : kv' = (k, v) := by simpa using hhead
        subst hk
        intro hcontra
        rw [List.map_cons] at hnod
        have hnot : (k, v).1 ∉ List.map Prod.fst m' := (List.nodup_cons.mp hnod).1
        have hmem : kv2.1 ∈ List.map Prod.fst m' := List.mem_map_of_mem Prod.fst hkv2
        rw [← hcontra] at hmem
        exact hnot hmem

/-- The entry loop of `HashMap::decode` inverts the entry loop of
`HashMap::encode` whenever every key is a valid UTF-8 string shorter
than `2^31` bytes and the element codec round-trips every stored
value. -/
lemma mapDecodeLoop_encode {T : Type} (encT : T → List Nat)
    (decT : List Nat → Option T × List Nat) :
    ∀ (m acc : List (List Nat × T)) (rest : List Nat),
      (∀ kv ∈ m, validUtf8 kv.1 = true ∧ kv.1.length < 2 ^ 31) →
      (∀ kv ∈ m, ∀ r : List Nat, decT (encT kv.2 ++ r) = (some kv.2, r)) →
      mapDecodeLoop decT m.length (mapEntriesEncode encT m ++ rest) acc
        = (some (m.foldl (fun a kv => insertA a kv.1 kv.2) acc), rest) := by
  intro m
  induction m with
  | nil => intro acc rest _ _; simp [mapDecodeLoop, mapEntriesEncode]
  | cons kv m' ih =>
    intro acc rest hkeys hvals
    obtain ⟨k, v⟩ := kv
    have hk := hkeys (k, v) (by simp)
    have hlist : mapEntriesEncode encT ((k, v) :: m') ++ rest =
        stringEncode k ++ (encT v ++ (mapEntriesEncode encT m' ++ rest)) := by
      rw [mapEntriesEncode]
      simp [List.append_assoc]
    have hs : stringDecode
        (stringEncode k ++ (encT v ++ (mapEntriesEncode encT m' ++ rest)))
        = (some k, encT v ++ (mapEntriesEncode encT m' ++ rest)) :=
      stringDecode_encode hk.1 hk.2 _
    have hv2 := hvals (k, v) (by simp) (mapEntriesEncode encT m' ++ rest)
    rw [List.length_cons, hlist]
    simp only [mapDecodeLoop, hs, hv2]
    rw [ih (insertA acc k v) rest
      (fun kv hkv => hkeys kv (by simp [hkv]))
      (fun kv hkv => hvals kv (by simp [hkv]))]
    simp

/-- `HashMap` round-trip under the element-codec hypotheses: decoding
the encoding of a non-empty map with distinct, valid keys recovers the
map and leaves exactly the one terminating zero byte unread. -/
lemma mapDecode_mapEncode {T : Type} (encT : T → List Nat)
    (decT : List Nat → Option T × List Nat) (m : List (List Nat × T))
    (hne : m ≠ []) (hlen : m.length < 2 ^ 31)
    (hnodup : (m.map Prod.fst).Nodup)
    (hkeys : ∀ kv ∈ m, validUtf8 kv.1 = true ∧ kv.1.length < 2 ^ 31)
    (hvals : ∀ kv ∈ m, ∀ r : List Nat, decT (encT kv.2 ++ r) = (some kv.2, r)) :
    mapDecode decT (mapEncode encT m) = (some m, [0]) := by
  obtain ⟨kv0, m', rfl⟩ := List.exists_cons_of_ne_nil hne
  have hemp : ((kv0 :: m').isEmpty) = false := rfl
  rw [mapEncode, hemp]
  simp only [Bool.false_eq_true, if_false, List.append_assoc]
  have hu := usize_roundtrip_append hlen
    (mapEntriesEncode encT (kv0 :: m') ++ [0])
  simp only [List.length_cons] at hu
  have hloop := mapDecodeLoop_encode encT decT (kv0 :: m') [] [0] hkeys hvals
  simp only [List.length_cons] at hloop
  simp only [mapDecode, List.length_cons, hu]
  rw [hloop]
  rw [foldl_insertA (kv0 :: m') [] hnodup (by simp)]
  simp

/-- C5 amended: for every non-empty map the last byte of the encoding
is a `0x00` appended after all entries, and the decoder never consumes
it: whenever each entry's key is a valid UTF-8 string shorter than
`2^31` bytes and the element codec consumes exactly its own encoding,
decode recovers the map and the cursor still holds that zero byte
(exactly that one byte — values such as nested non-empty maps, whose
own decode leaves bytes behind, can leave more than one, so "exactly
one unread zero byte" does not hold unconditionally). -/
theorem map_trailing_zero_not_consumed :
    (∀ (T : Type) (encT : T → List Nat) (m : List (List Nat × T)), m ≠ [] →
      (mapEncode encT m).getLast? = some 0) ∧
    (∀ (T : Type) (encT : T → List Nat) (decT : List Nat → Option T × List Nat)
      (m : List (List Nat × T)), m ≠ [] → m.length < 2 ^ 31 →
      (m.map Prod.fst).Nodup →
      (∀ kv ∈ m, validUtf8 kv.1 = true ∧ kv.1.length < 2 ^ 31) →
      (∀ kv ∈ m, ∀ r : List Nat, decT (encT kv.2 ++ r) = (some kv.2, r)) →
      mapDecode decT (mapEncode encT m) = (some m, [0])) := by
  constructor
  · intro T encT m hne
    obtain ⟨kv0, m', rfl⟩ := List.exists_cons_of_ne_nil hne
    rw [mapEncode]
    simp only [List.isEmpty_cons, Bool.false_eq_true, if_false]
    exact List.getLast?_concat _
  · intro T encT decT m hne hlen hnodup hkeys hvals
    exact mapDecode_mapEncode encT decT m hne hlen hnodup hkeys hvals

theorem map_trailing_zero_not_consumed_witness :
    (mapEncode i32Encode [([0x74], (5 : Int))]).getLast? = some 0 ∧
    mapDecode i32Decode (mapEncode i32Encode [([0x74], (5 : Int))])
      = (some [([0x74], (5 : Int))], [0]) := by
  constructor
  · exact map_trailing_zero_not_consumed.1 Int i32Encode _ (by simp)
  · refine map_trailing_zero_not_consumed.2 Int i32Encode i32Decode _ (by simp)
      (by norm_num) (by simp) ?_ ?_
    · intro kv hkv
      have hkv' : kv = ([0x74], (5 : Int)) := by simpa using hkv
      subst hkv'
      exact ⟨by decide, by norm_num⟩
    · intro kv hkv r
      have hkv' : kv = ([0x74], (5 : Int)) := by simpa using hkv
      subst hkv'
      exact i32_roundtrip_append (by norm_num) (by norm_num) r

/-- C5 counterexample: for the nested single-entry map
`{"k": {"i": 1}}` (element type `HashMap<String, i32>`) decode
succeeds but the cursor afterwards holds TWO unread zero bytes — the
inner map's unconsumed terminator and the outer one — not "exactly
that one unread zero byte" as claimed. -/
theorem map_nested_leaves_two_zero_bytes :
    mapDecode (mapDecode i32Decode)
        (mapEncode (mapEncode i32Encode) [([107], [([105], (1 : Int))])])
      = (some [([107], [([105], (1 : Int))])], [0, 0]) ∧
    ([0, 0] : List Nat) ≠ [0] :=
  ⟨rfl, by decide⟩

/-- C6 amended: a single-entry map round-trips whenever its key is a
valid UTF-8 string shorter than `2^31` bytes and the element codec
round-trips the stored value (true of every `i32`, `i64` or `bool`
value; not of every `usize`). -/
theorem singleton_map_roundtrip :
    ∀ (T : Type) (encT : T → List Nat) (decT : List Nat → Option T × List Nat)
      (k : List Nat) (v : T), validUtf8 k = true → k.length < 2 ^ 31 →
      (∀ r : List Nat, decT (encT v ++ r) = (some v, r)) →
      mapDecode decT (mapEncode encT [(k, v)]) = (some [(k, v)], [0]) := by
  intro T encT decT k v hv hl hrt
  refine mapDecode_mapEncode encT decT [(k, v)] (by simp) (by norm_num) (by simp)
    ?_ ?_
  · intro kv hkv
    have hkv' : kv = (k, v) := by simpa using hkv
    subst hkv'
    exact ⟨hv, hl⟩
  · intro kv hkv r
    have hkv' : kv = (k, v) := by simpa using hkv
    subst hkv'
    exact hrt r

theorem singleton_map_roundtrip_witness :
    mapDecode i32Decode
        (mapEncode i32Encode [([0x74, 0x65, 0x73, 0x74], (1 : Int))])
      = (some [([0x74, 0x65, 0x73, 0x74], (1 : Int))], [0]) :=
  singleton_map_roundtrip Int i32Encode i32Decode _ _ (by decide) (by norm_num)
    (fun r => i32_roundtrip_append (by norm_num) (by norm_num) r)

/-- C6 counterexample: the single-entry map `{"test": 2^31}` with
element type `usize` (a codec of this very library) does NOT
round-trip — the length codec truncates `2^31`, so decode yields the
map `{"test": 0}` instead. -/
theorem singleton_map_usize_fails :
    mapDecode usizeDecode
        (mapEncode usizeEncode [([0x74, 0x65, 0x73, 0x74], 2 ^ 31)])
      = (some [([0x74, 0x65, 0x73, 0x74], 0)], [0]) ∧ (2 ^ 31 : Nat) ≠ 0 :=
  ⟨by decide, by decide⟩

/-- C9: `String::decode` first decodes a length `n`, then pulls exactly
`n` bytes: it fails exactly when fewer than `n` bytes are available or
the collected bytes are not valid UTF-8, and otherwise returns the `n`
collected bytes with the cursor advanced exactly past them. -/
theorem string_decode_failure_conditions :
    ∀ (s : List Nat) (n : Nat) (r : List Nat), usizeDecode s = (some n, r) →
      ((stringDecode s).1 = none ↔
        r.length < n ∨ validUtf8 (List.take n r) = false) ∧
      (∀ out rem, stringDecode s = (some out, rem) →
        out = List.take n r ∧ out.length = n ∧ validUtf8 out = true ∧
          rem = List.drop n r) := by
  intro s n r h
  by_cases hlt : r.length < n
  · have hcond : (List.take n r).length < n := by
      rw [List.length_take]
      omega
    constructor
    · simp [stringDecode, h, hcond, hlt]
    · intro out rem hout
      simp [stringDecode, h, hcond, hlt] at hout
  · have hcond : ¬ (List.take n r).length < n := by
      rw [List.length_take]
      omega
    by_cases hv : validUtf8 (List.take n r) = true
    · constructor
      · simp [stringDecode, h, hcond, hv, hlt]
      · intro out rem hout
        simp only [stringDecode, h, if_neg hcond, hv, if_true, Prod.mk.injEq,
          Option.some.injEq] at hout
        obtain ⟨h1, h2⟩ := hout
        subst h1
        subst h2
        refine ⟨rfl, ?_, hv, rfl⟩
        rw [List.length_take]
        omega
    · have hv' : validUtf8 (List.take n r) = false := by simpa using hv
      constructor
      · simp [stringDecode, h, hcond, hv', hlt]
      · intro out rem hout
        simp [stringDecode, h, hcond, hv', hlt] at hout

theorem string_decode_failure_conditions_witness :
    ((stringDecode [4, 0x61, 0x62, 0x63]).1 = none ↔
      ([0x61, 0x62, 0x63] : List Nat).length < 2 ∨
        validUtf8 (List.take 2 [0x61, 0x62, 0x63]) = false) :=
  (string_decode_failure_conditions [4, 0x61, 0x62, 0x63] 2 [0x61, 0x62, 0x63]
    (by decide)).1

/-! ### Well-formedness of varint encodings -/

lemma finishEncode_ne_nil {l : List Nat} (h : l ≠ []) : finishEncode l ≠ [] := by
  cases l with
  | nil => exact absurd rfl h
  | cons b t => cases t <;> simp [finishEncode]

lemma encodeZig_single {u : Nat} (hu : 0 < u) (hq : u >>> 7 = 0) :
    encodeZig u = [u] := by
  have hu128 : u < 128 := by
    rw [Nat.shiftRight_eq_div_pow] at hq
    norm_num at hq
    omega
  have h128 : u < 2 ^ 7 := by norm_num; omega
  have hb7 : u.testBit 7 = false := Nat.testBit_lt_two_pow h128
  have hvb : varintBytes u = [(u ||| 0x80) % 256] := by
    rw [varintBytes_eq]
    simp [Nat.pos_iff_ne_zero.mp hu, hq, varintBytes_eq]
  have hlt : u ||| 0x80 < 256 := by
    simpa using Nat.or_lt_two_pow (x := u) (y := 0x80) (n := 8) (by omega) (by norm_num)
  have hx : (u ||| 0x80) ^^^ 0x80 = u := by
    simpa using lor_xor_two_pow (d := u) (k := 7) hb7
  rw [encodeZig, hvb]
  simp only [finishEncode, Nat.mod_eq_of_lt hlt, hx]

lemma encodeZig_cons {u : Nat} (hu : 0 < u) (hq : u >>> 7 ≠ 0) :
    encodeZig u = ((u ||| 0x80) % 256) :: encodeZig (u >>> 7) := by
  have hvb : varintBytes u = ((u ||| 0x80) % 256) :: varintBytes (u >>> 7) := by
    rw [varintBytes_eq]
    simp [Nat.pos_iff_ne_zero.mp hu]
  rw [encodeZig, hvb, finishEncode_cons (varintBytes_ne_nil hq)]
  rfl

lemma wfVarint_encodeZig : ∀ u : Nat, 0 < u → wfVarint (encodeZig u) = true := by
  intro u
  induction u using Nat.strong_induction_on with
  | _ u ih =>
    intro hu
    by_cases hq : u >>> 7 = 0
    · rw [encodeZig_single hu hq]
      have hu128 : u < 128 := by
        rw [Nat.shiftRight_eq_div_pow] at hq
        norm_num at hq
        omega
      have h128 : u < 2 ^ 7 := by norm_num; omega
      have hand : u &&& 0x80 = 0 := by
        simpa using and_two_pow_eq_zero (a := u) (k := 7)
          (Nat.testBit_lt_two_pow h128)
      simp [wfVarint, hand]
    · have hne : encodeZig (u >>> 7) ≠ [] :=
        finishEncode_ne_nil (varintBytes_ne_nil hq)
      obtain ⟨c, l', hcl⟩ := List.exists_cons_of_ne_nil hne
      rw [encodeZig_cons hu hq, hcl, wfVarint, ← hcl]
      have hlt : u >>> 7 < u := by
        rw [Nat.shiftRight_eq_div_pow]
        exact Nat.div_lt_self hu (by norm_num)
      have hq' : 0 < u >>> 7 := Nat.pos_iff_ne_zero.mpr hq
      simp [byte_cont u, ih (u >>> 7) hlt hq']

/-- C10 amended: every `i32` and `i64` encoding, and every `usize`
encoding except that of `2^63`, is a well-formed varint: non-empty,
continuation bit `0x80` set on every byte but the last, clear on the
last, with `0` encoding to the single byte `0x00`.  (`usize 2^63` is
the one exception: `n << 1` wraps to `0` and the emission loop runs
zero times, producing the empty byte string.) -/
theorem varint_encode_wellformed :
    (∀ v : Int, -(2 ^ 31) ≤ v → v < 2 ^ 31 → wfVarint (i32Encode v) = true) ∧
    (∀ v : Int, -(2 ^ 63) ≤ v → v < 2 ^ 63 → wfVarint (i64Encode v) = true) ∧
    (∀ n : Nat, n < 2 ^ 64 → n ≠ 2 ^ 63 → wfVarint (usizeEncode n) = true) ∧
    i32Encode 0 = [0] ∧ i64Encode 0 = [0] ∧ usizeEncode 0 = [0] := by
  have hsigned : ∀ w : Nat, 0 < w → ∀ v : Int,
      -((2 ^ (w - 1) : Nat) : Int) ≤ v → v < ((2 ^ (w - 1) : Nat) : Int) →
      wfVarint (sEncode w v) = true := by
    intro w hw v h1 h2
    by_cases hv0 : v = 0
    · subst hv0
      rw [sEncode, if_pos rfl]
      decide
    · rw [sEncode, if_neg hv0]
      apply wfVarint_encodeZig
      rw [zigzag_eq hw h1 h2]
      split_ifs <;> omega
  refine ⟨fun v h1 h2 => hsigned 32 (by norm_num) v (by push_cast; omega)
      (by push_cast; omega),
    fun v h1 h2 => hsigned 64 (by norm_num) v (by push_cast; omega)
      (by push_cast; omega),
    fun n hn hne => ?_, rfl, rfl, rfl⟩
  by_cases hn0 : n = 0
  · subst hn0
    decide
  · rw [usizeEncode, if_neg hn0]
    apply wfVarint_encodeZig
    have : (2 * n) % 2 ^ 64 ≠ 0 := by omega
    omega

theorem varint_encode_wellformed_witness :
    wfVarint (i32Encode (-3)) = true ∧ wfVarint (usizeEncode 5) = true :=
  ⟨varint_encode_wellformed.1 (-3) (by norm_num) (by norm_num),
   varint_encode_wellformed.2.2.1 5 (by norm_num) (by norm_num)⟩

/-- C10 counterexample: `usize::encode(2^63)` is the EMPTY byte
sequence — `*self << 1` wraps to zero, the emission loop runs zero
times and the pop/push fix-up has nothing to fix — contradicting the
claim that every `usize` encoding is non-empty and well-formed. -/
theorem usize_encode_two_pow_63_empty :
    usizeEncode (2 ^ 63) = [] ∧ wfVarint (usizeEncode (2 ^ 63)) = false :=
  ⟨by decide, by decide⟩

end AvroSpec
